import Mathlib

/-!
# Verification of the PTS tiled-OCR processing pipeline

Shallow embedding of the core functions of `services/processing_service.py`,
`services/job_queue.py` and `api/processing.py`, with theorems settling the
specification claims about tiling, coordinate projection, IoU, deduplication,
progress reporting and the job store.

Python floats are modelled as exact rationals (`ℚ`); Python ints as `ℕ`/`ℤ`
with Python's floor semantics for `int(...)` on non-negative values.
-/

namespace PTS

/-- A bounding box `(x1, y1, x2, y2)`, as the 4-tuples passed to `box_iou`. -/
structure Box where
  x1 : ℚ
  y1 : ℚ
  x2 : ℚ
  y2 : ℚ
  deriving DecidableEq, Repr

/-- A box is well-formed when `x1 ≤ x2` and `y1 ≤ y2`. -/
def Box.wellFormed (b : Box) : Prop := b.x1 ≤ b.x2 ∧ b.y1 ≤ b.y2

instance (b : Box) : Decidable b.wellFormed := by
  unfold Box.wellFormed; infer_instance

/-- Intersection area used by `box_iou`:
`inter_w = max(0, min(xa2,xb2) - max(xa1,xb1))`, same for height,
`inter_area = inter_w * inter_h`. -/
def interArea (a b : Box) : ℚ :=
  max 0 (min a.x2 b.x2 - max a.x1 b.x1) * max 0 (min a.y2 b.y2 - max a.y1 b.y1)

/-- Area of a box as computed in `box_iou`: `(x2 - x1) * (y2 - y1)`. -/
def Box.area (b : Box) : ℚ := (b.x2 - b.x1) * (b.y2 - b.y1)

/-- Union area used by `box_iou`: `area_a + area_b - inter_area`. -/
def unionArea (a b : Box) : ℚ := a.area + b.area - interArea a b

/-- Embedding of `box_iou` (processing_service.py):
returns `inter_area / union` if `union > 0` else `0`. -/
def box_iou (a b : Box) : ℚ :=
  if unionArea a b > 0 then interArea a b / unionArea a b else 0

/-- Embedding of `project_tile_df_to_global` acting on one coordinate:
tile-normalized `c` → pixel `c * tile_dim + offset` → page-normalized
`(c * tile_dim + offset) / full_dim`. -/
def projectCoord (c offset tile_dim full_dim : ℚ) : ℚ :=
  (c * tile_dim + offset) / full_dim

/-- Embedding of `project_tile_df_to_global` on one box. -/
def projectBox (b : Box) (x_offset y_offset tile_w tile_h full_w full_h : ℚ) : Box where
  x1 := projectCoord b.x1 x_offset tile_w full_w
  y1 := projectCoord b.y1 y_offset tile_h full_h
  x2 := projectCoord b.x2 x_offset tile_w full_w
  y2 := projectCoord b.y2 y_offset tile_h full_h

section IoU

lemma interArea_nonneg (a b : Box) : 0 ≤ interArea a b :=
  mul_nonneg (le_max_left 0 _) (le_max_left 0 _)

lemma interArea_le_area_left (a b : Box) (ha : a.wellFormed) :
    interArea a b ≤ a.area := by
  have hw : max 0 (min a.x2 b.x2 - max a.x1 b.x1) ≤ a.x2 - a.x1 := by
    apply max_le (by linarith [ha.1])
    have h1 : min a.x2 b.x2 ≤ a.x2 := min_le_left _ _
    have h2 : a.x1 ≤ max a.x1 b.x1 := le_max_left _ _
    linarith
  have hh : max 0 (min a.y2 b.y2 - max a.y1 b.y1) ≤ a.y2 - a.y1 := by
    apply max_le (by linarith [ha.2])
    have h1 : min a.y2 b.y2 ≤ a.y2 := min_le_left _ _
    have h2 : a.y1 ≤ max a.y1 b.y1 := le_max_left _ _
    linarith
  exact mul_le_mul hw hh (le_max_left 0 _) (by linarith [ha.1])

lemma interArea_comm (a b : Box) : interArea a b = interArea b a := by
  unfold interArea
  rw [min_comm a.x2, max_comm a.x1, min_comm a.y2, max_comm a.y1]

lemma interArea_le_unionArea (a b : Box) (ha : a.wellFormed) (hb : b.wellFormed) :
    interArea a b ≤ unionArea a b := by
  have h1 := interArea_le_area_left a b ha
  have h2 : interArea a b ≤ b.area := by
    rw [interArea_comm]; exact interArea_le_area_left b a hb
  unfold unionArea
  linarith

end IoU

/-! ## Tiler (`crop_tiles`) -/

/-- A tile emitted by `crop_tiles`: its id, pixel offsets, and the height and
width of its clipped pixel extent (`image[y:y+tile_size, x:x+tile_size]`). -/
structure Tile where
  tile_id : ℕ
  x_offset : ℕ
  y_offset : ℕ
  h : ℕ
  w : ℕ
  deriving DecidableEq, Repr

/-- Python `range(0, stop, step)` over integers: raises `ValueError` when
`step = 0`, is empty when `step < 0` (and `stop ≥ 0`), and otherwise yields the
multiples of `step` below `stop`. -/
def pyRange (stop : ℕ) (step : ℤ) : Except String (List ℕ) :=
  if step = 0 then .error "ValueError: range() arg 3 must not be zero"
  else if step < 0 then .ok []
  else .ok ((List.range ((stop + step.toNat - 1) / step.toNat)).map (· * step.toNat))

/-- Inner body of `crop_tiles`: walk the `(y, x)` pairs in raster-scan order,
skip a pair whose clipped extent `min(tile_size, H−y) × min(tile_size, W−x)`
is empty, and assign `tile_id` in emission order. -/
def assignTiles (H W tile_size : ℕ) : List (ℕ × ℕ) → ℕ → List Tile
  | [], _ => []
  | (y, x) :: rest, tid =>
    let th := min tile_size (H - y)
    let tw := min tile_size (W - x)
    if th * tw = 0 then assignTiles H W tile_size rest tid
    else ⟨tid, x, y, th, tw⟩ :: assignTiles H W tile_size rest (tid + 1)

/-- Embedding of `crop_tiles` for an image of height `H` and width `W`:
`stride = tile_size - overlap` (a Python int, possibly ≤ 0), loops
`for y in range(0, h, stride): for x in range(0, w, stride)`, skipping tiles
of empty clipped extent. A `ValueError` from `range` propagates. -/
def crop_tiles (H W tile_size overlap : ℕ) : Except String (List Tile) := do
  let stride : ℤ := (tile_size : ℤ) - (overlap : ℤ)
  let ys ← pyRange H stride
  let xs ← pyRange W stride
  return assignTiles H W tile_size (ys.flatMap fun y => xs.map fun x => (y, x)) 0

/-- A pixel `(py, px)` lies in the clipped extent of tile `t`. -/
def Tile.covers (t : Tile) (py px : ℕ) : Prop :=
  t.y_offset ≤ py ∧ py < t.y_offset + t.h ∧ t.x_offset ≤ px ∧ px < t.x_offset + t.w

instance (t : Tile) (py px : ℕ) : Decidable (t.covers py px) := by
  unfold Tile.covers; infer_instance

section Tiling

lemma mem_pyRange_of_lt {stop s : ℕ} (hs : 0 < s) {p : ℕ} (hp : p < stop) :
    p / s * s ∈ ((List.range ((stop + s - 1) / s)).map (· * s)) := by
  apply List.mem_map.mpr
  refine ⟨p / s, List.mem_range.mpr ?_, rfl⟩
  have hstop : 1 ≤ stop := Nat.one_le_iff_ne_zero.mpr (by omega)
  have h1 : stop + s - 1 = (stop - 1) + s := by omega
  rw [h1, Nat.add_div_right _ hs]
  have h2 : p / s ≤ (stop - 1) / s := Nat.div_le_div_right (by omega)
  omega

lemma assignTiles_mem {H W ts : ℕ} {y x : ℕ} :
    ∀ (pairs : List (ℕ × ℕ)) (tid0 : ℕ), (y, x) ∈ pairs →
    min ts (H - y) * min ts (W - x) ≠ 0 →
    ∃ tid, (⟨tid, x, y, min ts (H - y), min ts (W - x)⟩ : Tile) ∈
      assignTiles H W ts pairs tid0 := by
  intro pairs
  induction pairs with
  | nil => intro tid0 h; exact absurd h (List.not_mem_nil _)
  | cons hd rest ih =>
    intro tid0 hmem hne
    obtain ⟨y', x'⟩ := hd
    rcases List.mem_cons.mp hmem with heq | hrest
    · obtain ⟨hy, hx⟩ := Prod.mk.injEq .. ▸ heq
      subst hy hx
      rw [assignTiles, if_neg hne]
      exact ⟨tid0, List.mem_cons_self _ _⟩
    · rw [assignTiles]
      split
      · exact ih tid0 hrest hne
      · obtain ⟨tid, ht⟩ := ih (tid0 + 1) hrest hne
        exact ⟨tid, List.mem_cons_of_mem _ ht⟩

end Tiling

/-! ## Deduplicator (`deduplicate_ocr`) -/

/-- A detection row of the OCR table as consumed by `deduplicate_ocr`:
a text `value`, a `confidence`, and a page-normalized box. -/
structure Det where
  value : String
  confidence : ℚ
  box : Box
  deriving DecidableEq, Repr

instance : Inhabited Det := ⟨⟨"", 0, ⟨0, 0, 0, 0⟩⟩⟩

/-- Python's `s.strip().lower()` on text: whitespace trimmed on both sides,
then case-folded, at the character level. -/
def normText (s : String) : List Char :=
  ((s.data.dropWhile Char.isWhitespace).reverse.dropWhile
      Char.isWhitespace).reverse.map Char.toLower

/-- Insert a detection into a confidence-descending list, keeping it after
entries of greater or equal confidence. -/
def insertByConf (d : Det) : List Det → List Det
  | [] => [d]
  | e :: es =>
    if e.confidence < d.confidence then d :: e :: es else e :: insertByConf d es

/-- `df.sort_values("confidence", ascending=False)`: the table sorted by
confidence descending. -/
def sortByConfDesc : List Det → List Det
  | [] => []
  | d :: ds => insertByConf d (sortByConfDesc ds)

/-- One iteration of the inner `for j` loop of `deduplicate_ocr`: skip `j` if
already suppressed, skip if the normalized texts differ, and suppress `j` when
additionally `box_iou(box_i, box_j) >= iou_thresh`. -/
def suppStep (l : List Det) (thresh : ℚ) (i : ℕ) (s : Finset ℕ) (j : ℕ) :
    Finset ℕ :=
  if j ∈ s then s
  else if normText (l.getD i default).value ≠ normText (l.getD j default).value
    then s
  else if box_iou (l.getD i default).box (l.getD j default).box ≥ thresh
    then insert j s
  else s

/-- The inner `for j in range(i + 1, len(df))` loop of `deduplicate_ocr`. -/
def suppressInner (l : List Det) (thresh : ℚ) (i : ℕ) (supp : Finset ℕ) :
    Finset ℕ :=
  (List.range' (i + 1) (l.length - (i + 1))).foldl (suppStep l thresh i) supp

/-- The outer `for i in range(len(df))` loop of `deduplicate_ocr`, returning
the `keep` index list and the final `suppressed` set. -/
def dedupFold (l : List Det) (thresh : ℚ) : List ℕ × Finset ℕ :=
  (List.range l.length).foldl
    (fun st i =>
      if i ∈ st.2 then st else (st.1 ++ [i], suppressInner l thresh i st.2))
    ([], ∅)

/-- Embedding of `deduplicate_ocr`: sort by confidence descending, run greedy
text-gated non-maximum suppression, and return `df.loc[keep]`. -/
def deduplicate_ocr (l : List Det) (thresh : ℚ) : List Det :=
  let sorted := sortByConfDesc l
  (dedupFold sorted thresh).1.map fun i => sorted.getD i default

section Dedup

/-- The suppression condition of the claim: detection `i` of the sorted table
can suppress detection `j` iff their normalized texts are equal and their
boxes' IoU reaches the threshold. -/
def suppCond (l : List Det) (thresh : ℚ) (i j : ℕ) : Prop :=
  normText (l.getD i default).value = normText (l.getD j default).value ∧
  box_iou (l.getD i default).box (l.getD j default).box ≥ thresh

instance (l : List Det) (thresh : ℚ) (i j : ℕ) :
    Decidable (suppCond l thresh i j) := by
  unfold suppCond; infer_instance

lemma mem_suppStep_self {l : List Det} {thresh : ℚ} {i : ℕ} {s : Finset ℕ}
    {j : ℕ} (hj : j ∈ s) (k : ℕ) : j ∈ suppStep l thresh i s k := by
  unfold suppStep
  split
  · exact hj
  · split
    · exact hj
    · split
      · exact Finset.mem_insert_of_mem hj
      · exact hj

lemma mem_foldl_suppStep_of_mem {l : List Det} {thresh : ℚ} {i : ℕ} :
    ∀ (js : List ℕ) {s : Finset ℕ} {j : ℕ}, j ∈ s →
      j ∈ js.foldl (suppStep l thresh i) s := by
  intro js
  induction js with
  | nil => intro s j hj; exact hj
  | cons k rest ih => intro s j hj; exact ih (mem_suppStep_self hj k)

lemma mem_foldl_suppStep_of_not_mem {l : List Det} {thresh : ℚ} {i : ℕ} :
    ∀ (js : List ℕ) {s : Finset ℕ} {j : ℕ}, j ∉ js →
      (j ∈ js.foldl (suppStep l thresh i) s ↔ j ∈ s) := by
  intro js
  induction js with
  | nil => intro s j _; rfl
  | cons k rest ih =>
    intro s j hj
    have hjk : j ≠ k := fun h => hj (h ▸ List.mem_cons_self k rest)
    have hjr : j ∉ rest := fun h => hj (List.mem_cons_of_mem k h)
    rw [List.foldl_cons, ih hjr]
    unfold suppStep
    split
    · rfl
    · split
      · rfl
      · split
        · rw [Finset.mem_insert]
          exact or_iff_right hjk
        · rfl

lemma mem_foldl_suppStep_iff_suppCond {l : List Det} {thresh : ℚ} {i j : ℕ} :
    ∀ (js : List ℕ) (supp : Finset ℕ), js.Nodup → j ∈ js → j ∉ supp →
      (j ∈ js.foldl (suppStep l thresh i) supp ↔ suppCond l thresh i j) := by
  intro js
  induction js with
  | nil => intro supp _ hmem _; exact absurd hmem (List.not_mem_nil j)
  | cons k rest ih =>
    intro supp hnd hmem hj
    rcases List.mem_cons.mp hmem with heq | hrest
    · subst heq
      have hjrest : j ∉ rest := (List.nodup_cons.mp hnd).1
      rw [List.foldl_cons, mem_foldl_suppStep_of_not_mem rest hjrest]
      unfold suppStep
      rw [if_neg hj]
      by_cases htext :
          normText (l.getD i default).value = normText (l.getD j default).value
      · rw [if_neg (by simpa using htext)]
        by_cases hiou :
            box_iou (l.getD i default).box (l.getD j default).box ≥ thresh
        · rw [if_pos hiou]
          exact ⟨fun _ => ⟨htext, hiou⟩, fun _ => Finset.mem_insert_self j supp⟩
        · rw [if_neg hiou]
          exact iff_of_false hj fun hc => hiou hc.2
      · rw [if_pos (by simpa using htext)]
        exact iff_of_false hj fun hc => htext hc.1
    · by_cases hjk : j = k
      · subst hjk
        exact absurd hrest (List.nodup_cons.mp hnd).1
      · rw [List.foldl_cons]
        have hstep : j ∈ suppStep l thresh i supp k ↔ j ∈ supp := by
          unfold suppStep
          split
          · rfl
          · split
            · rfl
            · split
              · rw [Finset.mem_insert]; exact or_iff_right hjk
              · rfl
        have hj' : j ∉ suppStep l thresh i supp k := fun h => hj (hstep.mp h)
        exact ih _ (List.nodup_cons.mp hnd).2 hrest hj'

/-- Characterization of one inner scan: a not-yet-suppressed `j` strictly
after `i` ends up suppressed by `i`'s scan iff the suppression condition
holds between `i` and `j`. -/
lemma mem_suppressInner_iff {l : List Det} {thresh : ℚ} {i j : ℕ}
    {supp : Finset ℕ} (hij : i < j) (hjn : j < l.length) (hj : j ∉ supp) :
    j ∈ suppressInner l thresh i supp ↔ suppCond l thresh i j := by
  unfold suppressInner
  apply mem_foldl_suppStep_iff_suppCond _ _ (List.nodup_range' _ _ 1 one_pos)
    _ hj
  rw [List.mem_range']
  exact ⟨j - (i + 1), by omega, by omega⟩

/-- Confidence-descending order between adjacent rows. -/
def confDesc (u v : Det) : Prop := v.confidence ≤ u.confidence

lemma insertByConf_head? (d : Det) (l : List Det) :
    (insertByConf d l).head? = some d ∨ (insertByConf d l).head? = l.head? := by
  cases l with
  | nil => left; rfl
  | cons e es =>
    unfold insertByConf
    split
    · left; rfl
    · right; rfl

lemma chain'_insertByConf (d : Det) :
    ∀ l : List Det, l.Chain' confDesc → (insertByConf d l).Chain' confDesc := by
  intro l
  induction l with
  | nil => intro _; simp [insertByConf, List.chain'_singleton]
  | cons e es ih =>
    intro hch
    rw [List.chain'_cons'] at hch
    unfold insertByConf
    split
    · rename_i hlt
      rw [List.chain'_cons]
      exact ⟨le_of_lt hlt, List.chain'_cons'.mpr hch⟩
    · rename_i hnlt
      rw [List.chain'_cons']
      refine ⟨?_, ih hch.2⟩
      intro x hx
      rcases insertByConf_head? d es with hh | hh
      · rw [hh] at hx
        cases hx
        exact le_of_not_lt hnlt
      · rw [hh] at hx
        exact hch.1 x hx

lemma sortByConfDesc_chain' :
    ∀ l : List Det, (sortByConfDesc l).Chain' confDesc := by
  intro l
  induction l with
  | nil => exact List.chain'_nil
  | cons d ds ih => exact chain'_insertByConf d _ ih

lemma dedup_pair_merge {a b : Det} {th : ℚ}
    (htext : normText a.value = normText b.value)
    (hiou : box_iou a.box b.box ≥ th)
    (hconf : b.confidence < a.confidence) :
    deduplicate_ocr [a, b] th = [a] ∧ deduplicate_ocr [b, a] th = [a] := by
  have hnlt : ¬ (a.confidence < b.confidence) := lt_asymm hconf
  have hsort1 : sortByConfDesc [a, b] = [a, b] := by
    simp [sortByConfDesc, insertByConf, hconf]
  have hsort2 : sortByConfDesc [b, a] = [a, b] := by
    simp [sortByConfDesc, insertByConf, hnlt]
  have hrun : deduplicate_ocr [a, b] th = [a] := by
    simp [deduplicate_ocr, hsort1, dedupFold, suppressInner, suppStep,
      List.range_succ, htext, hiou]
  have hrun2 : deduplicate_ocr [b, a] th = [a] := by
    simp [deduplicate_ocr, hsort2, dedupFold, suppressInner, suppStep,
      List.range_succ, htext, hiou]
  exact ⟨hrun, hrun2⟩

lemma dedup_pair_difftext {a b : Det} {th : ℚ}
    (htext : normText a.value ≠ normText b.value) :
    deduplicate_ocr [a, b] th = sortByConfDesc [a, b] ∧
    (deduplicate_ocr [a, b] th).length = 2 ∧
    a ∈ deduplicate_ocr [a, b] th ∧ b ∈ deduplicate_ocr [a, b] th := by
  by_cases hconf : b.confidence < a.confidence
  · have hsort : sortByConfDesc [a, b] = [a, b] := by
      simp [sortByConfDesc, insertByConf, hconf]
    have hrun : deduplicate_ocr [a, b] th = [a, b] := by
      simp [deduplicate_ocr, hsort, dedupFold, suppressInner, suppStep,
        List.range_succ, htext]
    rw [hrun, hsort]
    simp
  · have htext' : normText b.value ≠ normText a.value := fun h => htext h.symm
    have hsort : sortByConfDesc [a, b] = [b, a] := by
      simp [sortByConfDesc, insertByConf, hconf]
    have hrun : deduplicate_ocr [a, b] th = [b, a] := by
      simp [deduplicate_ocr, hsort, dedupFold, suppressInner, suppStep,
        List.range_succ, htext']
    rw [hrun, hsort]
    simp

end Dedup

/-! ## `tile_ocr` result assembly and `process_pdf` outcome -/

/-- Projection of one detection row by `project_tile_df_to_global`:
text and confidence are carried over, the box is projected. -/
def projectDet (d : Det) (x_offset y_offset tile_w tile_h full_w full_h : ℚ) :
    Det :=
  { d with box := projectBox d.box x_offset y_offset tile_w tile_h full_w full_h }

/-- The per-tile skip-and-project loop of `tile_ocr`: a tile whose detector
result is `None` or an empty table is skipped (`continue`); any other table is
projected to page coordinates using the tile's clipped width/height and
offsets. -/
def collectTileDfs (rs : List (Tile × Option (List Det))) (full_w full_h : ℚ) :
    List (List Det) :=
  rs.filterMap fun tr =>
    match tr.2 with
    | none => none
    | some df =>
      if df.isEmpty then none
      else some (df.map fun d =>
        projectDet d tr.1.x_offset tr.1.y_offset tr.1.w tr.1.h full_w full_h)

/-- The assembly tail of `tile_ocr`: collect non-empty projected per-tile
tables, `pd.concat` them — which raises `ValueError` when the list is
empty — deduplicate at threshold `0.6`, and set
`word_idx = range(len(df_final))`. Rows are returned as
`(word_idx, detection)` pairs. -/
def tile_ocr_assemble (rs : List (Tile × Option (List Det)))
    (full_w full_h : ℚ) : Except String (List (ℕ × Det)) :=
  let all_dfs := collectTileDfs rs full_w full_h
  if all_dfs.isEmpty then .error "ValueError: No objects to concatenate"
  else .ok (deduplicate_ocr all_dfs.flatten (6 / 10)).enum

/-- One page's input to the processing loop of `process_pdf`: the page's
tiles with their detector results, and the page's full pixel dimensions. -/
structure PageInput where
  tiles : List (Tile × Option (List Det))
  full_w : ℚ
  full_h : ℚ

/-- Outcome of `process_pdf`: the `success` flag and the `error` string of the
returned dict. -/
structure PdfResult where
  success : Bool
  error : Option String
  deriving DecidableEq, Repr

/-- The per-page loop of `process_pdf`: each page runs `tile_ocr`; any
exception escapes the loop. -/
def process_pages : List PageInput → Except String Unit
  | [] => .ok ()
  | pg :: rest => do
    let _ ← tile_ocr_assemble pg.tiles pg.full_w pg.full_h
    process_pages rest

/-- The outcome of `process_pdf` as far as the per-page OCR pipeline decides
it: any exception in the page loop (or from `pd.concat` of zero per-page
Excel tables when there are no pages) is caught by the surrounding
`try/except` and turned into `{'success': False, 'error': str(e)}`; otherwise
the OCR pipeline does not fail the run. -/
def process_pdf_outcome (pages : List PageInput) : PdfResult :=
  match (do
    let _ ← process_pages pages
    if pages.isEmpty then
      Except.error "ValueError: No objects to concatenate"
    else (Except.ok () : Except String Unit)) with
  | .ok _ => ⟨true, none⟩
  | .error e => ⟨false, some e⟩

section Assembly

lemma projectDet_wellFormed (d : Det) (xo yo tw th fw fh : ℚ)
    (hd : d.box.wellFormed) (htw : 0 ≤ tw) (hth : 0 ≤ th)
    (hfw : 0 < fw) (hfh : 0 < fh) :
    (projectDet d xo yo tw th fw fh).box.wellFormed := by
  unfold projectDet projectBox Box.wellFormed projectCoord
  constructor
  · apply (div_le_div_iff_of_pos_right hfw).mpr
    have := mul_le_mul_of_nonneg_right hd.1 htw
    linarith
  · apply (div_le_div_iff_of_pos_right hfh).mpr
    have := mul_le_mul_of_nonneg_right hd.2 hth
    linarith

lemma mem_insertByConf {x d : Det} :
    ∀ {l : List Det}, x ∈ insertByConf d l → x = d ∨ x ∈ l := by
  intro l
  induction l with
  | nil => intro h; left; simpa [insertByConf] using h
  | cons e es ih =>
    intro h
    unfold insertByConf at h
    split at h
    · rcases List.mem_cons.mp h with h1 | h1
      · left; exact h1
      · right; exact h1
    · rcases List.mem_cons.mp h with h1 | h1
      · right; exact h1 ▸ List.mem_cons_self e es
      · rcases ih h1 with h2 | h2
        · left; exact h2
        · right; exact List.mem_cons_of_mem e h2

lemma mem_sortByConfDesc {x : Det} :
    ∀ {l : List Det}, x ∈ sortByConfDesc l → x ∈ l := by
  intro l
  induction l with
  | nil => intro h; exact absurd h (List.not_mem_nil x)
  | cons d ds ih =>
    intro h
    rcases mem_insertByConf h with h1 | h1
    · exact h1 ▸ List.mem_cons_self d ds
    · exact List.mem_cons_of_mem d (ih h1)

lemma sortByConfDesc_length :
    ∀ l : List Det, (sortByConfDesc l).length = l.length := by
  have hins : ∀ (d : Det) (l : List Det),
      (insertByConf d l).length = l.length + 1 := by
    intro d l
    induction l with
    | nil => rfl
    | cons e es ih =>
      unfold insertByConf
      split
      · rfl
      · simp [ih]
  intro l
  induction l with
  | nil => rfl
  | cons d ds ih => simp [sortByConfDesc, hins, ih]

lemma dedupFold_keep_lt {l : List Det} {th : ℚ} :
    ∀ k ∈ (dedupFold l th).1, k < l.length := by
  unfold dedupFold
  have aux : ∀ (is : List ℕ) (st : List ℕ × Finset ℕ),
      (∀ i ∈ is, i < l.length) → (∀ k ∈ st.1, k < l.length) →
      ∀ k ∈ (is.foldl (fun st i =>
          if i ∈ st.2 then st
          else (st.1 ++ [i], suppressInner l th i st.2)) st).1,
        k < l.length := by
    intro is
    induction is with
    | nil => intro st _ hst k hk; exact hst k hk
    | cons i rest ih =>
      intro st his hst k hk
      refine ih _ (fun i' hi' => his i' (List.mem_cons_of_mem i hi')) ?_ k hk
      intro k' hk'
      simp only at hk'
      split at hk'
      · exact hst k' hk'
      · rcases List.mem_append.mp hk' with h1 | h1
        · exact hst k' h1
        · have : k' = i := List.mem_singleton.mp h1
          exact this ▸ his i (List.mem_cons_self i rest)
  exact aux _ _ (fun i hi => List.mem_range.mp hi) (fun k hk => absurd hk
    (List.not_mem_nil k))

lemma mem_collectTileDfs {rs : List (Tile × Option (List Det))} {fw fh : ℚ}
    {l' : List Det} (hl' : l' ∈ collectTileDfs rs fw fh) :
    ∃ tr ∈ rs, ∃ df, tr.2 = some df ∧
      l' = df.map fun d =>
        projectDet d tr.1.x_offset tr.1.y_offset tr.1.w tr.1.h fw fh := by
  obtain ⟨tr, htr, hf⟩ := List.mem_filterMap.mp hl'
  cases hcase : tr.2 with
  | none =>
    simp only [hcase] at hf
    exact absurd hf (by simp)
  | some df =>
    simp only [hcase] at hf
    by_cases he : df.isEmpty
    · rw [if_pos he] at hf
      exact absurd hf (by simp)
    · rw [if_neg he] at hf
      injection hf with hf
      exact ⟨tr, htr, df, hcase, hf.symm⟩

lemma mem_deduplicate_ocr {x : Det} {l : List Det} {th : ℚ}
    (hx : x ∈ deduplicate_ocr l th) : x ∈ l := by
  unfold deduplicate_ocr at hx
  simp only at hx
  obtain ⟨k, hk, hget⟩ := List.mem_map.mp hx
  have hlt : k < (sortByConfDesc l).length := dedupFold_keep_lt k hk
  have : (sortByConfDesc l).getD k default = (sortByConfDesc l).get ⟨k, hlt⟩ := by
    rw [List.getD_eq_getElem?_getD, List.getElem?_eq_getElem hlt]
    rfl
  rw [this] at hget
  exact mem_sortByConfDesc (hget ▸ List.get_mem (sortByConfDesc l) k hlt)

end Assembly

/-! ## In-memory job store (`job_queue.py`) and the cancel endpoint
(`api/processing.py`) -/

/-- A job record: the Python dict held in `self.jobs[job_id]`, as an
association list from field names to string values where the most recent
binding wins. -/
abbrev JobRecord := List (String × String)

/-- Field access `d.get(k)` on a job record. -/
def dictGet : JobRecord → String → Option String
  | [], _ => none
  | (k', v) :: rest, k => if k' = k then some v else dictGet rest k

/-- `d[k] = v`: the new binding shadows any previous one. -/
def dictSet (d : JobRecord) (k v : String) : JobRecord := (k, v) :: d

/-- `d.update(kvs)`: apply the bindings in order. -/
def dictUpdate (d : JobRecord) (kvs : List (String × String)) : JobRecord :=
  kvs.foldl (fun d' kv => dictSet d' kv.1 kv.2) d

/-- The in-memory store `self.jobs`: a dict from job id to record. -/
abbrev Store := List (String × JobRecord)

/-- `self.jobs.get(job_id)`. -/
def storeGet : Store → String → Option JobRecord
  | [], _ => none
  | (k, r) :: rest, id => if k = id then some r else storeGet rest id

/-- `self.jobs[job_id] = r`. -/
def storeSet (s : Store) (id : String) (r : JobRecord) : Store := (id, r) :: s

/-- `InMemoryJobQueue.get_job_status`: `self.jobs.get(job_id, {})`. -/
def get_job_status (jobs : Store) (job_id : String) : JobRecord :=
  (storeGet jobs job_id).getD []

/-- `InMemoryJobQueue.update_job_status`: create an empty record when the id
is unknown, then `update` it with `status`, `updated_at` and the kwargs. -/
def update_job_status (jobs : Store) (job_id status ts : String)
    (kwargs : List (String × String)) : Store :=
  let jobs' := match storeGet jobs job_id with
    | none => storeSet jobs job_id []
    | some _ => jobs
  let r := (storeGet jobs' job_id).getD []
  storeSet jobs' job_id
    (dictUpdate r ([("status", status), ("updated_at", ts)] ++ kwargs))

/-- `InMemoryJobQueue.save_job_results`: set the `results` field only when
the id is already present; otherwise do nothing. -/
def save_job_results (jobs : Store) (job_id results : String) : Store :=
  match storeGet jobs job_id with
  | none => jobs
  | some r => storeSet jobs job_id (dictSet r "results" results)

/-- Response of the `/cancel/<job_id>` endpoint. -/
inductive CancelResp where
  | notFound
  | rejected (status : String)
  | cancelled
  deriving DecidableEq, Repr

/-- Embedding of `cancel_job` (api/processing.py): 404 when
`get_job_status` returns a falsy (empty) dict, 400 when the current status is
`completed` or `failed`, otherwise update the status to `cancelled` and
report success. -/
def cancel_job (jobs : Store) (job_id ts : String) : CancelResp × Store :=
  let job_data := get_job_status jobs job_id
  if job_data.isEmpty then (CancelResp.notFound, jobs)
  else
    let current_status := dictGet job_data "status"
    if current_status = some "completed" ∨ current_status = some "failed" then
      (CancelResp.rejected (current_status.getD ""), jobs)
    else
      (CancelResp.cancelled,
       update_job_status jobs job_id "cancelled" ts
         [("message", "Job cancelled by user")])

/-! ## Progress reporting of `process_pdf`

The progress percentages passed to the callback during one successful run,
as a function of the page count `P`, the per-page tile counts, the OCR batch
size `B`, and whether a storage service is attached. Python's `int(...)` on
the non-negative float products is modelled as `ℕ` floor division. -/

/-- `page_start_progress = 5 + int((page_num / total_pages) * 85)`. -/
def pageStart (P p : ℕ) : ℕ := 5 + 85 * p / P

/-- `page_progress_range = page_end_progress - page_start_progress`, where
`page_end_progress = pageStart P (p + 1)`. -/
def pageRange (P p : ℕ) : ℕ := pageStart P (p + 1) - pageStart P p

/-- The tile counts that `tile_ocr` reports to its progress callback for a
page of `T` tiles under batch size `B`: `0` before OCR, then
`min(batch_num * batch_size, total_tiles)` after each of the `ceil(T / B)`
batches, then `T` after the loop. -/
def ocrCallbackCounts (T B : ℕ) : List ℕ :=
  [0] ++ (List.range ((T + B - 1) / B)).map (fun b => min ((b + 1) * B) T)
    ++ [T]

/-- `ocr_progress`: count `c` of `T` tiles maps to
`page_start + int(((c / T) * 0.7) * page_progress_range)`. -/
def ocrProgValue (start r T c : ℕ) : ℕ := start + 7 * c * r / (10 * T)

/-- All progress values emitted while processing page `p` of `P` (with `T`
tiles, batch size `B`, storage present iff `storage`), in order: the
page-start value, the forwarded OCR values, the 0.75 / 0.85 checkpoints, the
0.95 persistence checkpoint when storage is attached, and the page-complete
value. -/
def pageProgressList (P p T B : ℕ) (storage : Bool) : List ℕ :=
  let start := pageStart P p
  let r := pageRange P p
  [start] ++ (ocrCallbackCounts T B).map (ocrProgValue start r T) ++
  [start + 3 * r / 4, start + 17 * r / 20] ++
  (if storage then [start + 19 * r / 20] else []) ++
  [pageStart P (p + 1)]

/-- The concatenated page sequences for pages `p, p+1, …` (`fuel` pages). -/
def pagesProgressFrom (P B : ℕ) (tiles : ℕ → ℕ) (storage : Bool) :
    ℕ → ℕ → List ℕ
  | 0, _ => []
  | fuel + 1, p =>
    pageProgressList P p (tiles p) B storage ++
    pagesProgressFrom P B tiles storage fuel (p + 1)

/-- The full sequence of progress values passed to the callback during one
successful `process_pdf` run: `0` at start, `5` after PDF conversion, the
per-page sequences, `92` before Excel generation, `95` before saving it when
storage is attached, and the final `100`. -/
def processProgressList (P B : ℕ) (tiles : ℕ → ℕ) (storage : Bool) :
    List ℕ :=
  [0, 5] ++ pagesProgressFrom P B tiles storage P 0 ++
  [92] ++ (if storage then [95] else []) ++ [100]

section Progress

lemma pageStart_mono {P p q : ℕ} (h : p ≤ q) : pageStart P p ≤ pageStart P q :=
  Nat.add_le_add_left (Nat.div_le_div_right (Nat.mul_le_mul_left 85 h)) 5

lemma pageStart_zero (P : ℕ) : pageStart P 0 = 5 := by
  simp [pageStart]

lemma pageStart_self {P : ℕ} (hP : 0 < P) : pageStart P P = 90 := by
  unfold pageStart
  rw [Nat.mul_div_cancel 85 hP]

lemma pageStart_add_range (P p : ℕ) :
    pageStart P p + pageRange P p = pageStart P (p + 1) :=
  Nat.add_sub_cancel' (pageStart_mono (Nat.le_succ p))

lemma ocrProgValue_le_34 {start r T c : ℕ} (hT : 0 < T) (hc : c ≤ T) :
    ocrProgValue start r T c ≤ start + 3 * r / 4 := by
  unfold ocrProgValue
  apply Nat.add_le_add_left
  have h2 : 7 * c * r ≤ T * (7 * r) := by
    calc 7 * c * r = c * (7 * r) := by ring
      _ ≤ T * (7 * r) := Nat.mul_le_mul_right _ hc
  have h1 : 7 * c * r / (10 * T) ≤ 7 * r / 10 := by
    calc 7 * c * r / (10 * T) ≤ T * (7 * r) / (10 * T) := Nat.div_le_div_right h2
      _ = T * (7 * r) / (T * 10) := by rw [Nat.mul_comm 10 T]
      _ = 7 * r / 10 := Nat.mul_div_mul_left (7 * r) 10 hT
  omega

lemma ocrProgValue_mono {start r T c c' : ℕ} (h : c ≤ c') :
    ocrProgValue start r T c ≤ ocrProgValue start r T c' :=
  Nat.add_le_add_left
    (Nat.div_le_div_right (Nat.mul_le_mul_right r (Nat.mul_le_mul_left 7 h)))
    start

lemma ocrCallbackCounts_le_T {T B : ℕ} :
    ∀ c ∈ ocrCallbackCounts T B, c ≤ T := by
  intro c hc
  simp only [ocrCallbackCounts, List.mem_append, List.mem_singleton,
    List.mem_map, List.mem_range] at hc
  rcases hc with (hc | ⟨b, _, hb⟩) | hc
  · exact hc ▸ Nat.zero_le T
  · exact hb ▸ min_le_right _ T
  · exact hc ▸ le_refl T

lemma ocrCallbackCounts_pairwise (T B : ℕ) :
    (ocrCallbackCounts T B).Pairwise (· ≤ ·) := by
  unfold ocrCallbackCounts
  apply List.pairwise_append.mpr
  refine ⟨?_, List.pairwise_singleton _ _, ?_⟩
  · apply List.pairwise_append.mpr
    refine ⟨List.pairwise_singleton _ _, ?_, ?_⟩
    · apply List.pairwise_map.mpr
      apply List.Pairwise.imp ?_ (List.pairwise_lt_range _)
      intro a b hab
      exact min_le_min (Nat.mul_le_mul_right B (by omega)) (le_refl T)
    · intro a ha b _
      simp only [List.mem_singleton] at ha
      exact ha ▸ Nat.zero_le b
  · intro a ha b hb
    simp only [List.mem_singleton] at hb
    rw [hb]
    simp only [List.mem_append, List.mem_singleton, List.mem_map,
      List.mem_range] at ha
    rcases ha with ha | ⟨b', _, hb'⟩
    · exact ha ▸ Nat.zero_le T
    · exact hb' ▸ min_le_right _ T

lemma pageProgress_cases {P p T B : ℕ} {s : Bool} {v : ℕ}
    (hv : v ∈ pageProgressList P p T B s) :
    v = pageStart P p ∨
    (∃ c ∈ ocrCallbackCounts T B,
      v = ocrProgValue (pageStart P p) (pageRange P p) T c) ∨
    v = pageStart P p + 3 * pageRange P p / 4 ∨
    v = pageStart P p + 17 * pageRange P p / 20 ∨
    v = pageStart P p + 19 * pageRange P p / 20 ∨
    v = pageStart P (p + 1) := by
  unfold pageProgressList at hv
  simp only at hv
  rcases List.mem_append.mp hv with h | h
  · rcases List.mem_append.mp h with h | h
    · rcases List.mem_append.mp h with h | h
      · rcases List.mem_append.mp h with h | h
        · exact Or.inl (List.mem_singleton.mp h)
        · obtain ⟨c, hc, hcv⟩ := List.mem_map.mp h
          exact Or.inr (Or.inl ⟨c, hc, hcv.symm⟩)
      · rcases List.mem_cons.mp h with h | h
        · exact Or.inr (Or.inr (Or.inl h))
        · exact Or.inr (Or.inr (Or.inr (Or.inl (List.mem_singleton.mp h))))
    · cases s
      · simp at h
      · simp at h
        exact Or.inr (Or.inr (Or.inr (Or.inr (Or.inl h))))
  · exact Or.inr (Or.inr (Or.inr (Or.inr (Or.inr (List.mem_singleton.mp h)))))

lemma pageProgress_lb {P p T B : ℕ} {s : Bool} :
    ∀ v ∈ pageProgressList P p T B s, pageStart P p ≤ v := by
  intro v hv
  rcases pageProgress_cases hv with rfl | ⟨c, _, rfl⟩ | rfl | rfl | rfl | rfl
  · exact le_refl _
  · exact Nat.le_add_right _ _
  · exact Nat.le_add_right _ _
  · exact Nat.le_add_right _ _
  · exact Nat.le_add_right _ _
  · exact pageStart_mono (Nat.le_succ p)

lemma pageProgress_ub {P p T B : ℕ} {s : Bool} (hT : 0 < T) :
    ∀ v ∈ pageProgressList P p T B s, v ≤ pageStart P (p + 1) := by
  have hend := pageStart_add_range P p
  intro v hv
  rcases pageProgress_cases hv with rfl | ⟨c, hc, rfl⟩ | rfl | rfl | rfl | rfl
  · exact pageStart_mono (Nat.le_succ p)
  · have h1 : ocrProgValue (pageStart P p) (pageRange P p) T c ≤
        pageStart P p + 3 * pageRange P p / 4 :=
      ocrProgValue_le_34 hT (ocrCallbackCounts_le_T c hc)
    omega
  · omega
  · omega
  · omega
  · exact le_refl _

lemma pageProgress_pairwise {P p T B : ℕ} {s : Bool} (hT : 0 < T) :
    (pageProgressList P p T B s).Pairwise (· ≤ ·) := by
  have hend := pageStart_add_range P p
  have hocr_mem : ∀ v ∈ (ocrCallbackCounts T B).map
      (ocrProgValue (pageStart P p) (pageRange P p) T),
      pageStart P p ≤ v ∧ v ≤ pageStart P p + 3 * pageRange P p / 4 := by
    intro v hv
    obtain ⟨c, hc, hcv⟩ := List.mem_map.mp hv
    rw [← hcv]
    exact ⟨Nat.le_add_right _ _,
      ocrProgValue_le_34 hT (ocrCallbackCounts_le_T c hc)⟩
  unfold pageProgressList
  simp only
  refine List.pairwise_append.mpr ⟨?_, List.pairwise_singleton _ _, ?_⟩
  · refine List.pairwise_append.mpr ⟨?_, ?_, ?_⟩
    · refine List.pairwise_append.mpr ⟨?_, ?_, ?_⟩
      · refine List.pairwise_append.mpr
          ⟨List.pairwise_singleton _ _, ?_, ?_⟩
        · exact List.pairwise_map.mpr
            ((ocrCallbackCounts_pairwise T B).imp fun h => ocrProgValue_mono h)
        · intro a ha v hv
          rw [List.mem_singleton.mp ha]
          exact (hocr_mem v hv).1
      · exact List.pairwise_cons.mpr
          ⟨fun b hb => by rw [List.mem_singleton.mp hb]; omega,
           List.pairwise_singleton _ _⟩
      · intro a ha b hb
        rcases List.mem_cons.mp hb with hb | hb
        all_goals try rw [List.mem_singleton.mp hb]
        all_goals rcases List.mem_append.mp ha with ha | ha
        · rw [List.mem_singleton.mp ha, hb]
          omega
        · rw [hb]
          have := (hocr_mem a ha).2
          omega
        · rw [List.mem_singleton.mp ha]
          omega
        · have := (hocr_mem a ha).2
          omega
    · cases s
      · simp
      · simp
    · intro a ha b hb
      cases s
      · simp at hb
      · simp at hb
        rw [hb]
        rcases List.mem_append.mp ha with ha | ha
        · rcases List.mem_append.mp ha with ha | ha
          · rw [List.mem_singleton.mp ha]
            omega
          · have := (hocr_mem a ha).2
            omega
        · rcases List.mem_cons.mp ha with ha | ha
          · rw [ha]; omega
          · rw [List.mem_singleton.mp ha]; omega
  · intro a ha b hb
    rw [List.mem_singleton.mp hb]
    rcases List.mem_append.mp ha with ha | ha
    · rcases List.mem_append.mp ha with ha | ha
      · rcases List.mem_append.mp ha with ha | ha
        · rw [List.mem_singleton.mp ha]
          exact pageStart_mono (Nat.le_succ p)
        · have := (hocr_mem a ha).2
          omega
      · rcases List.mem_cons.mp ha with ha | ha
        · rw [ha]; omega
        · rw [List.mem_singleton.mp ha]; omega
    · cases s
      · simp at ha
      · simp at ha
        rw [ha]; omega

lemma pagesFrom_lb {P B : ℕ} {tiles : ℕ → ℕ} {s : Bool} :
    ∀ (fuel p : ℕ), ∀ v ∈ pagesProgressFrom P B tiles s fuel p,
      pageStart P p ≤ v := by
  intro fuel
  induction fuel with
  | zero => intro p v hv; simp [pagesProgressFrom] at hv
  | succ f ih =>
    intro p v hv
    simp only [pagesProgressFrom] at hv
    rcases List.mem_append.mp hv with h | h
    · exact pageProgress_lb v h
    · exact le_trans (pageStart_mono (Nat.le_succ p)) (ih (p + 1) v h)

lemma pagesFrom_ub {P B : ℕ} {tiles : ℕ → ℕ} {s : Bool}
    (htiles : ∀ q < P, 0 < tiles q) :
    ∀ (fuel p : ℕ), p + fuel ≤ P →
      ∀ v ∈ pagesProgressFrom P B tiles s fuel p,
        v ≤ pageStart P (p + fuel) := by
  intro fuel
  induction fuel with
  | zero => intro p _ v hv; simp [pagesProgressFrom] at hv
  | succ f ih =>
    intro p hpf v hv
    simp only [pagesProgressFrom] at hv
    rcases List.mem_append.mp hv with h | h
    · exact le_trans (pageProgress_ub (htiles p (by omega)) v h)
        (pageStart_mono (by omega))
    · have h1 := ih (p + 1) (by omega) v h
      have heq : p + 1 + f = p + (f + 1) := by omega
      rwa [heq] at h1

lemma pagesFrom_pairwise {P B : ℕ} {tiles : ℕ → ℕ} {s : Bool}
    (htiles : ∀ q < P, 0 < tiles q) :
    ∀ (fuel p : ℕ), p + fuel ≤ P →
      (pagesProgressFrom P B tiles s fuel p).Pairwise (· ≤ ·) := by
  intro fuel
  induction fuel with
  | zero => intro p _; simp [pagesProgressFrom]
  | succ f ih =>
    intro p hpf
    simp only [pagesProgressFrom]
    refine List.pairwise_append.mpr
      ⟨pageProgress_pairwise (htiles p (by omega)), ih (p + 1) (by omega), ?_⟩
    intro a ha b hb
    exact le_trans (pageProgress_ub (htiles p (by omega)) a ha)
      (pagesFrom_lb f (p + 1) b hb)

end Progress

end PTS

open PTS

/-- **C4 counterexample.** With `tile_size = 100`, `overlap = 150` (so
`stride = -50 ≤ 0`) on a 5×5 image, `crop_tiles` does not fail at all: it
silently returns an empty tile list, contradicting the claim that every
`stride ≤ 0` configuration fails with a `ConfigurationError`. -/
theorem C4_counterexample : crop_tiles 5 5 100 150 = Except.ok [] := by
  rfl

/-- **C4 (amended).** For every image and every `(tile_size, overlap)` with
`stride = tile_size - overlap ≤ 0`, `crop_tiles` does not raise a
`ConfigurationError`: when `tile_size = overlap` (stride 0) it fails with
Python's `ValueError` from `range`, and when `tile_size < overlap`
(stride < 0) it silently returns an empty tile list. -/
theorem C4_stride_nonpositive (H W tile_size overlap : ℕ)
    (h : tile_size ≤ overlap) :
    (tile_size = overlap →
      crop_tiles H W tile_size overlap =
        Except.error "ValueError: range() arg 3 must not be zero") ∧
    (tile_size < overlap →
      crop_tiles H W tile_size overlap = Except.ok []) := by
  constructor
  · intro heq
    have hz : (tile_size : ℤ) - (overlap : ℤ) = 0 := by omega
    simp [crop_tiles, pyRange, hz, Except.bind]
    rfl
  · intro hlt
    have hz : ¬ ((tile_size : ℤ) - (overlap : ℤ) = 0) := by omega
    have hneg : (tile_size : ℤ) - (overlap : ℤ) < 0 := by omega
    simp [crop_tiles, pyRange, hz, hneg, Except.bind, assignTiles]
    rfl

/-- Witness for the amended C4 at concrete parameters. -/
theorem C4_stride_nonpositive_witness :
    (100 : ℕ) ≤ 100 ∧
    ((100 : ℕ) = 100 →
      crop_tiles 5 5 100 100 =
        Except.error "ValueError: range() arg 3 must not be zero") :=
  ⟨le_refl 100, (C4_stride_nonpositive 5 5 100 100 (le_refl 100)).1⟩

/-- **C5.** For every image of height `H` and width `W` and every valid
parameter pair with `tile_size > overlap ≥ 0`, each pixel `(py, px)` with
`py < H` and `px < W` lies inside the clipped extent of at least one tile
emitted by `crop_tiles`. -/
theorem C5_pixel_coverage (H W tile_size overlap py px : ℕ)
    (hvalid : overlap < tile_size) (hpy : py < H) (hpx : px < W) :
    ∃ tiles, crop_tiles H W tile_size overlap = Except.ok tiles ∧
      ∃ t ∈ tiles, t.covers py px := by
  set s : ℕ := tile_size - overlap with hs_def
  have hs : 0 < s := by omega
  have hstride : (tile_size : ℤ) - (overlap : ℤ) = (s : ℤ) := by
    push_cast [hs_def]; omega
  have hsz : ¬ ((tile_size : ℤ) - (overlap : ℤ) = 0) := by omega
  have hsneg : ¬ ((tile_size : ℤ) - (overlap : ℤ) < 0) := by omega
  have htn : ((tile_size : ℤ) - (overlap : ℤ)).toNat = s := by omega
  have hok : crop_tiles H W tile_size overlap = Except.ok
      (assignTiles H W tile_size
        (((List.range ((H + s - 1) / s)).map (· * s)).flatMap fun y' =>
          ((List.range ((W + s - 1) / s)).map (· * s)).map fun x' => (y', x')) 0) := by
    simp only [crop_tiles, pyRange, if_neg hsz, if_neg hsneg, htn, Except.bind]
    rfl
  refine ⟨_, hok, ?_⟩
  · -- the tile whose offsets are the largest multiples of the stride
    -- not exceeding the pixel
    set y : ℕ := py / s * s with hy_def
    set x : ℕ := px / s * s with hx_def
    have hy_le : y ≤ py := Nat.div_mul_le_self py s
    have hx_le : x ≤ px := Nat.div_mul_le_self px s
    have hy_lt : py < y + s := by
      have h3 : y = s * (py / s) := by rw [hy_def, Nat.mul_comm]
      calc py = s * (py / s) + py % s := (Nat.div_add_mod py s).symm
        _ < s * (py / s) + s := Nat.add_lt_add_left (Nat.mod_lt py hs) _
        _ = y + s := by rw [h3]
    have hx_lt : px < x + s := by
      have h3 : x = s * (px / s) := by rw [hx_def, Nat.mul_comm]
      calc px = s * (px / s) + px % s := (Nat.div_add_mod px s).symm
        _ < s * (px / s) + s := Nat.add_lt_add_left (Nat.mod_lt px hs) _
        _ = x + s := by rw [h3]
    have hth : 0 < min tile_size (H - y) := by omega
    have htw : 0 < min tile_size (W - x) := by omega
    obtain ⟨tid, htid⟩ := @assignTiles_mem H W tile_size y x
      (((List.range ((H + s - 1) / s)).map (· * s)).flatMap fun y' =>
        ((List.range ((W + s - 1) / s)).map (· * s)).map fun x' => (y', x')) 0
      (List.mem_flatMap.mpr ⟨y, mem_pyRange_of_lt hs hpy,
        List.mem_map.mpr ⟨x, mem_pyRange_of_lt hs hpx, rfl⟩⟩)
      (Nat.mul_ne_zero (Nat.pos_iff_ne_zero.mp hth) (Nat.pos_iff_ne_zero.mp htw))
    refine ⟨_, htid, ?_⟩
    show y ≤ py ∧ py < y + min tile_size (H - y) ∧
      x ≤ px ∧ px < x + min tile_size (W - x)
    have hsts : s ≤ tile_size := by omega
    have hHy : y + (H - y) = H :=
      Nat.add_sub_cancel' (le_of_lt (lt_of_le_of_lt hy_le hpy))
    have hWx : x + (W - x) = W :=
      Nat.add_sub_cancel' (le_of_lt (lt_of_le_of_lt hx_le hpx))
    omega

/-- Witness for C5 at a concrete image, parameters and pixel. -/
theorem C5_pixel_coverage_witness :
    (1 : ℕ) < 3 ∧ (4 : ℕ) < 5 ∧ (4 : ℕ) < 5 ∧
    ∃ tiles, crop_tiles 5 5 3 1 = Except.ok tiles ∧ ∃ t ∈ tiles, t.covers 4 4 :=
  ⟨by decide, by decide, by decide,
   C5_pixel_coverage 5 5 3 1 4 4 (by decide) (by decide) (by decide)⟩

open PTS

/-- **C8.** Every row of the final per-page table assembled by `tile_ocr` has
a well-formed box (given detector rows with well-formed tile-normalized boxes
and positive page dimensions), and its `word_idx` is a dense 0-based index
equal to the row's position, hence unique within the page's detection set. -/
theorem C8_final_table_invariants (rs : List (Tile × Option (List Det)))
    (fw fh : ℚ) (hfw : 0 < fw) (hfh : 0 < fh)
    (hwf : ∀ tr ∈ rs, ∀ df, tr.2 = some df → ∀ d ∈ df, d.box.wellFormed)
    (out : List (ℕ × Det))
    (hok : tile_ocr_assemble rs fw fh = Except.ok out) :
    (∀ p ∈ out, p.2.box.wellFormed) ∧
    out.map Prod.fst = List.range out.length := by
  unfold tile_ocr_assemble at hok
  simp only at hok
  split at hok
  · exact absurd hok (by simp)
  · have hout : out = (deduplicate_ocr
        (collectTileDfs rs fw fh).flatten (6 / 10)).enum := by
      injection hok with h
      exact h.symm
    constructor
    · intro p hp
      have hd : p.2 ∈ deduplicate_ocr (collectTileDfs rs fw fh).flatten
          (6 / 10) :=
        List.snd_mem_of_mem_enum (hout ▸ hp)
      have hfl : p.2 ∈ (collectTileDfs rs fw fh).flatten :=
        mem_deduplicate_ocr hd
      obtain ⟨l', hl', hmem⟩ := List.mem_flatten.mp hfl
      obtain ⟨tr, htr, df, hcase, hf⟩ := mem_collectTileDfs hl'
      obtain ⟨d0, hd0, hproj⟩ := List.mem_map.mp (hf ▸ hmem)
      rw [← hproj]
      exact projectDet_wellFormed d0 _ _ _ _ _ _
        (hwf tr htr df hcase d0 hd0)
        (Nat.cast_nonneg _) (Nat.cast_nonneg _) hfw hfh
    · rw [hout, List.enum_map_fst, List.enum_length]

/-- Witness for C8 at a concrete one-tile, one-detection input. -/
theorem C8_final_table_invariants_witness :
    (0 : ℚ) < 1 ∧
    tile_ocr_assemble
        [(⟨0, 0, 0, 1, 1⟩, some [⟨"x", 1, ⟨0, 0, 1, 1⟩⟩])] 1 1 =
      Except.ok [(0, ⟨"x", 1, ⟨0, 0, 1, 1⟩⟩)] ∧
    ((∀ p ∈ [((0 : ℕ), (⟨"x", 1, ⟨0, 0, 1, 1⟩⟩ : Det))], p.2.box.wellFormed) ∧
      [((0 : ℕ), (⟨"x", 1, ⟨0, 0, 1, 1⟩⟩ : Det))].map Prod.fst =
        List.range [((0 : ℕ), (⟨"x", 1, ⟨0, 0, 1, 1⟩⟩ : Det))].length) := by
  have hone : (0 : ℚ) < 1 := by norm_num
  have hok : tile_ocr_assemble
      [(⟨0, 0, 0, 1, 1⟩, some [⟨"x", 1, ⟨0, 0, 1, 1⟩⟩])] 1 1 =
      Except.ok [(0, ⟨"x", 1, ⟨0, 0, 1, 1⟩⟩)] := by
    norm_num [tile_ocr_assemble, collectTileDfs, projectDet, projectBox,
      projectCoord, deduplicate_ocr, sortByConfDesc, insertByConf, dedupFold,
      suppressInner, suppStep, List.range_succ, List.enum]
    intro h
    exact absurd h (by simp)
  refine ⟨hone, hok, ?_⟩
  exact C8_final_table_invariants _ 1 1 hone hone
    (by intro tr htr df hdf d hd
        simp only [List.mem_singleton] at htr
        subst htr
        simp only [Option.some.injEq] at hdf
        subst hdf
        simp only [List.mem_singleton] at hd
        subst hd
        constructor <;> norm_num)
    _ hok

/-- **C9.** If every tile of a page yields a detector result that is `None`
or empty, `tile_ocr` raises (`pd.concat` of zero tables) instead of returning
an empty detection table; consequently a document containing such a page makes
`process_pdf` return failure for the whole run. -/
theorem C9_all_empty_page_fails :
    (∀ (rs : List (Tile × Option (List Det))) (fw fh : ℚ),
      (∀ tr ∈ rs, tr.2 = none ∨ tr.2 = some []) →
      tile_ocr_assemble rs fw fh =
        Except.error "ValueError: No objects to concatenate") ∧
    (∀ pages : List PageInput,
      (∃ pg ∈ pages, ∀ tr ∈ pg.tiles, tr.2 = none ∨ tr.2 = some []) →
      (process_pdf_outcome pages).success = false) := by
  have hpart1 : ∀ (rs : List (Tile × Option (List Det))) (fw fh : ℚ),
      (∀ tr ∈ rs, tr.2 = none ∨ tr.2 = some []) →
      tile_ocr_assemble rs fw fh =
        Except.error "ValueError: No objects to concatenate" := by
    intro rs fw fh hall
    have hnil : collectTileDfs rs fw fh = [] := by
      apply List.filterMap_eq_nil.mpr
      intro tr htr
      rcases hall tr htr with hc | hc <;> simp [hc]
    unfold tile_ocr_assemble
    simp [hnil]
  refine ⟨hpart1, ?_⟩
  have haux : ∀ pages : List PageInput,
      (∃ pg ∈ pages, ∀ tr ∈ pg.tiles, tr.2 = none ∨ tr.2 = some []) →
      ∃ e, process_pages pages = Except.error e := by
    intro pages
    induction pages with
    | nil =>
      rintro ⟨pg, hpg, -⟩
      exact absurd hpg (List.not_mem_nil pg)
    | cons p rest ih =>
      rintro ⟨pg, hpg, hall⟩
      rcases List.mem_cons.mp hpg with heq | hrest
      · subst heq
        refine ⟨"ValueError: No objects to concatenate", ?_⟩
        have hthis := hpart1 pg.tiles pg.full_w pg.full_h hall
        simp only [process_pages, hthis]
        rfl
      · cases hres : tile_ocr_assemble p.tiles p.full_w p.full_h with
        | error e =>
          refine ⟨e, ?_⟩
          simp only [process_pages, hres]
          rfl
        | ok v =>
          obtain ⟨e, he⟩ := ih ⟨pg, hrest, hall⟩
          refine ⟨e, ?_⟩
          simp only [process_pages, hres, he]
          rfl
  intro pages hex
  obtain ⟨e, he⟩ := haux pages hex
  unfold process_pdf_outcome
  simp only [he]
  rfl

/-- Witness for C9: a one-page document whose single tile produced no
detections yields a failed run. -/
theorem C9_all_empty_page_fails_witness :
    (∀ tr ∈ [((⟨0, 0, 0, 5, 5⟩ : Tile), (none : Option (List Det)))],
        tr.2 = none ∨ tr.2 = some []) ∧
    (process_pdf_outcome
        [⟨[((⟨0, 0, 0, 5, 5⟩ : Tile), none)], 5, 5⟩]).success = false :=
  ⟨by simp, C9_all_empty_page_fails.2
    [⟨[((⟨0, 0, 0, 5, 5⟩ : Tile), none)], 5, 5⟩]
    ⟨_, List.mem_singleton.mpr rfl, by simp⟩⟩

/-- **C2.** For a single successful run of `process_pdf` (at least one page,
a positive OCR batch size, and at least one tile per page — anything else
aborts the run as a failure), the sequence of progress values passed to the
callback, including the per-batch OCR values forwarded by `ocr_progress`, is
monotonically non-decreasing, every value lies in `[0, 100]` (values are
naturals, so `0 ≤ v` holds by type), and the final invocation reports exactly
`100`. -/
theorem C2_progress_monotone_bounded (P B : ℕ) (tiles : ℕ → ℕ)
    (storage : Bool) (hP : 0 < P) (hB : 0 < B)
    (htiles : ∀ q < P, 0 < tiles q) :
    List.Chain' (· ≤ ·) (processProgressList P B tiles storage) ∧
    (∀ v ∈ processProgressList P B tiles storage, v ≤ 100) ∧
    (processProgressList P B tiles storage).getLast? = some 100 := by
  have hub : ∀ v ∈ pagesProgressFrom P B tiles storage P 0, v ≤ 90 := by
    intro v hv
    have h1 := pagesFrom_ub htiles P 0 (by omega) v hv
    rwa [Nat.zero_add, pageStart_self hP] at h1
  have hlb : ∀ v ∈ pagesProgressFrom P B tiles storage P 0, 5 ≤ v := by
    intro v hv
    have h1 := pagesFrom_lb P 0 v hv
    rwa [pageStart_zero] at h1
  have hA : ∀ a ∈ [0, 5] ++ pagesProgressFrom P B tiles storage P 0,
      a ≤ 92 := by
    intro a ha
    rcases List.mem_append.mp ha with h | h
    · rcases List.mem_cons.mp h with h | h
      · omega
      · rw [List.mem_singleton.mp h]; omega
    · have := hub a h; omega
  have hBb : ∀ a ∈ ([0, 5] ++ pagesProgressFrom P B tiles storage P 0)
      ++ [92], a ≤ 92 := by
    intro a ha
    rcases List.mem_append.mp ha with h | h
    · exact hA a h
    · rw [List.mem_singleton.mp h]
  have hC : ∀ a ∈ (([0, 5] ++ pagesProgressFrom P B tiles storage P 0)
      ++ [92]) ++ (if storage then [95] else []), a ≤ 95 := by
    intro a ha
    rcases List.mem_append.mp ha with h | h
    · have := hBb a h; omega
    · cases storage
      · simp at h
      · simp at h
        omega
  refine ⟨?_, ?_, ?_⟩
  · apply List.chain'_iff_pairwise.mpr
    unfold processProgressList
    refine List.pairwise_append.mpr ⟨?_, List.pairwise_singleton _ _, ?_⟩
    · refine List.pairwise_append.mpr ⟨?_, ?_, ?_⟩
      · refine List.pairwise_append.mpr ⟨?_, List.pairwise_singleton _ _,
          fun a ha _ hb => List.mem_singleton.mp hb ▸ hA a ha⟩
        refine List.pairwise_append.mpr ⟨?_, ?_, ?_⟩
        · exact List.pairwise_cons.mpr
            ⟨fun b hb => by rw [List.mem_singleton.mp hb]; omega,
             List.pairwise_singleton _ _⟩
        · exact pagesFrom_pairwise htiles P 0 (by omega)
        · intro a ha b hb
          have h5 := hlb b hb
          rcases List.mem_cons.mp ha with h | h
          · omega
          · rw [List.mem_singleton.mp h]; omega
      · cases storage
        · simp
        · simp
      · intro a ha b hb
        cases storage
        · simp at hb
        · simp at hb
          rw [hb]
          have := hBb a ha
          omega
    · intro a ha b hb
      rw [List.mem_singleton.mp hb]
      have := hC a ha
      omega
  · intro v hv
    unfold processProgressList at hv
    rcases List.mem_append.mp hv with h | h
    · have := hC v h; omega
    · rw [List.mem_singleton.mp h]
  · unfold processProgressList
    exact List.getLast?_concat _

/-- Witness for C2 on a one-page, one-tile run without storage. -/
theorem C2_progress_monotone_bounded_witness :
    ((0 : ℕ) < 1 ∧ (0 : ℕ) < 1 ∧ ∀ q < 1, 0 < (fun _ => 1) q) ∧
    (List.Chain' (· ≤ ·) (processProgressList 1 1 (fun _ => 1) false) ∧
     (∀ v ∈ processProgressList 1 1 (fun _ => 1) false, v ≤ 100) ∧
     (processProgressList 1 1 (fun _ => 1) false).getLast? = some 100) :=
  ⟨⟨by decide, by decide, by decide⟩,
   C2_progress_monotone_bounded 1 1 (fun _ => 1) false (by decide) (by decide)
     (by decide)⟩

/-- **C10.** For a `job_id` absent from the in-memory store,
`save_job_results` returns normally and leaves the store unchanged (a silent
no-op), whereas `update_job_status` creates a fresh record for that id
instead of reporting an unknown-job error. -/
theorem C10_absent_job_id (jobs : Store) (job_id results status ts : String)
    (kwargs : List (String × String))
    (habs : storeGet jobs job_id = none) :
    save_job_results jobs job_id results = jobs ∧
    storeGet (update_job_status jobs job_id status ts kwargs) job_id =
      some (dictUpdate []
        ([("status", status), ("updated_at", ts)] ++ kwargs)) := by
  constructor
  · unfold save_job_results
    rw [habs]
  · unfold update_job_status
    simp only [habs]
    have h1 : storeGet (storeSet jobs job_id []) job_id = some [] := by
      unfold storeSet storeGet
      rw [if_pos rfl]
    simp only [h1, Option.getD_some]
    unfold storeSet storeGet
    rw [if_pos rfl]

/-- Witness for C10 on the empty store. -/
theorem C10_absent_job_id_witness :
    storeGet ([] : Store) "job-1" = none ∧
    save_job_results [] "job-1" "r" = [] ∧
    storeGet (update_job_status [] "job-1" "processing" "t0" []) "job-1" =
      some (dictUpdate [] ([("status", "processing"), ("updated_at", "t0")]
        ++ [])) := by
  have habs : storeGet ([] : Store) "job-1" = none := rfl
  have h := C10_absent_job_id [] "job-1" "r" "processing" "t0" [] habs
  exact ⟨habs, h.1, h.2⟩

/-- **C3 counterexample.** A job in the terminal status `cancelled` is NOT
rejected by the cancel endpoint: the request succeeds (and re-runs the
status update), contradicting the claim that every terminal status —
including `cancelled` — is rejected as an error. -/
theorem C3_counterexample :
    (cancel_job [("j", [("status", "cancelled")])] "j" "t0").1 =
      CancelResp.cancelled := by
  decide

/-- **C3 (amended).** A cancellation request against an existing job (with a
non-empty record) is rejected with its status unchanged iff the current
status is `completed` or `failed`; from any other status — including
`queued`, `processing`, and also the terminal `cancelled` — the request
succeeds and sets the status to `cancelled`. -/
theorem C3_cancel_transitions (jobs : Store) (job_id ts : String)
    (jd : JobRecord) (hjd : storeGet jobs job_id = some jd) (hne : jd ≠ []) :
    ((dictGet jd "status" = some "completed" ∨
      dictGet jd "status" = some "failed") →
      (cancel_job jobs job_id ts).1 =
        CancelResp.rejected ((dictGet jd "status").getD "") ∧
      (cancel_job jobs job_id ts).2 = jobs) ∧
    (¬(dictGet jd "status" = some "completed" ∨
       dictGet jd "status" = some "failed") →
      (cancel_job jobs job_id ts).1 = CancelResp.cancelled ∧
      dictGet (get_job_status (cancel_job jobs job_id ts).2 job_id) "status" =
        some "cancelled") := by
  have hjob : get_job_status jobs job_id = jd := by
    unfold get_job_status
    rw [hjd]
    rfl
  have hempty : jd.isEmpty = false := by
    cases jd with
    | nil => exact absurd rfl hne
    | cons a l => rfl
  constructor
  · intro hterm
    unfold cancel_job
    simp only [hjob, hempty, Bool.false_eq_true, if_false, if_pos hterm]
    exact ⟨by trivial, by trivial⟩
  · intro hother
    unfold cancel_job
    simp only [hjob, hempty, Bool.false_eq_true, if_false, if_neg hother]
    refine ⟨by trivial, ?_⟩
    unfold update_job_status
    simp only [hjd]
    unfold get_job_status storeSet storeGet
    rw [if_pos rfl]
    simp only [Option.getD_some, hjd]
    rfl

/-- Witness for the amended C3: cancelling a `processing` job succeeds, and
cancelling a `completed` job is rejected with the store unchanged. -/
theorem C3_cancel_transitions_witness :
    (storeGet [("j", [("status", "completed")])] "j" =
        some [("status", "completed")] ∧
      ([("status", "completed")] : JobRecord) ≠ []) ∧
    (cancel_job [("j", [("status", "completed")])] "j" "t0").1 =
      CancelResp.rejected "completed" ∧
    (cancel_job [("j", [("status", "completed")])] "j" "t0").2 =
      [("j", [("status", "completed")])] := by
  have hjd : storeGet [("j", [("status", "completed")])] "j" =
      some [("status", "completed")] := by decide
  have hne : ([("status", "completed")] : JobRecord) ≠ [] := by decide
  have h := (C3_cancel_transitions [("j", [("status", "completed")])] "j" "t0"
    [("status", "completed")] hjd hne).1 (by decide)
  exact ⟨⟨hjd, hne⟩, h.1, h.2⟩

/-- **C1.** `deduplicate_ocr` sorts by confidence descending and greedily
suppresses: a detection at sorted position `i` suppresses a later,
not-yet-suppressed detection at position `j` iff their normalized texts
(case-folded, whitespace-trimmed) are equal and their box IoU reaches the
threshold; consequently two detections with identical (normalized) text and
IoU ≥ threshold reduce to exactly one surviving entry — the higher-confidence
one — and two detections with identical boxes but different text both
survive. -/
theorem C1_dedup_nms :
    (∀ (l : List Det) (th : ℚ) (i j : ℕ) (supp : Finset ℕ),
      i < j → j < l.length → j ∉ supp →
      (j ∈ suppressInner l th i supp ↔ suppCond l th i j)) ∧
    (∀ l : List Det, (sortByConfDesc l).Chain' confDesc) ∧
    (∀ (a b : Det) (th : ℚ), normText a.value = normText b.value →
      box_iou a.box b.box ≥ th → b.confidence < a.confidence →
      deduplicate_ocr [a, b] th = [a] ∧ deduplicate_ocr [b, a] th = [a]) ∧
    (∀ (a b : Det) (th : ℚ), a.box = b.box →
      normText a.value ≠ normText b.value →
      (deduplicate_ocr [a, b] th).length = 2 ∧
      a ∈ deduplicate_ocr [a, b] th ∧ b ∈ deduplicate_ocr [a, b] th) :=
  ⟨fun _ _ _ _ _ hij hjn hj => mem_suppressInner_iff hij hjn hj,
   sortByConfDesc_chain',
   fun _ _ _ htext hiou hconf => dedup_pair_merge htext hiou hconf,
   fun _ _ _ _ htext => (dedup_pair_difftext htext).2⟩

/-- Witness for C1: a concrete pair with equal normalized text, IoU 1 ≥ 0.6
and distinct confidences reduces to the higher-confidence detection. -/
theorem C1_dedup_nms_witness :
    (normText "PT1" = normText " pt1 " ∧
     box_iou (Box.mk 0 0 1 1) (Box.mk 0 0 1 1) ≥ (6 / 10 : ℚ) ∧
     (1 / 2 : ℚ) < 9 / 10) ∧
    deduplicate_ocr
        [⟨"PT1", 9 / 10, ⟨0, 0, 1, 1⟩⟩, ⟨" pt1 ", 1 / 2, ⟨0, 0, 1, 1⟩⟩]
        (6 / 10) =
      [⟨"PT1", 9 / 10, ⟨0, 0, 1, 1⟩⟩] :=
  ⟨⟨by decide, by norm_num [box_iou, unionArea, interArea, Box.area],
    by norm_num⟩,
   (C1_dedup_nms.2.2.1 ⟨"PT1", 9 / 10, ⟨0, 0, 1, 1⟩⟩
      ⟨" pt1 ", 1 / 2, ⟨0, 0, 1, 1⟩⟩ (6 / 10)
      (by decide) (by norm_num [box_iou, unionArea, interArea, Box.area])
      (by norm_num)).1⟩

/-- **C7.** `box_iou(a, b)` equals `intersection_area / union_area` when the
union area is positive and `0` when the union area is `0`; and for every pair
of well-formed boxes (`x1 ≤ x2`, `y1 ≤ y2`) the result lies in `[0, 1]`. -/
theorem C7_box_iou_spec (a b : Box) :
    (unionArea a b > 0 → box_iou a b = interArea a b / unionArea a b) ∧
    (unionArea a b = 0 → box_iou a b = 0) ∧
    (a.wellFormed → b.wellFormed → 0 ≤ box_iou a b ∧ box_iou a b ≤ 1) := by
  refine ⟨fun h => if_pos h, fun h => by simp [box_iou, h], fun ha hb => ?_⟩
  unfold box_iou
  split
  · rename_i hu
    constructor
    · exact div_nonneg (interArea_nonneg a b) (le_of_lt hu)
    · rw [div_le_one hu]
      exact interArea_le_unionArea a b ha hb
  · exact ⟨le_refl 0, zero_le_one⟩

/-- Witness for C7 at a concrete pair of boxes. -/
theorem C7_box_iou_spec_witness :
    (Box.mk 0 0 1 1).wellFormed ∧ (Box.mk 0 0 2 1).wellFormed ∧
    (0 ≤ box_iou (Box.mk 0 0 1 1) (Box.mk 0 0 2 1) ∧
     box_iou (Box.mk 0 0 1 1) (Box.mk 0 0 2 1) ≤ 1) := by
  have ha : (Box.mk 0 0 1 1).wellFormed := by decide
  have hb : (Box.mk 0 0 2 1).wellFormed := by decide
  exact ⟨ha, hb, (C7_box_iou_spec (Box.mk 0 0 1 1) (Box.mk 0 0 2 1)).2.2 ha hb⟩

/-- **C6.** Projection is the two-step transform
`c_page = (c_tile * tile_dim + offset) / full_dim` per axis; for a fixed
page-pixel point `p` inside a tile, projecting its tile-normalized coordinate
`(p - offset) / tile_dim` recovers the page-normalized coordinate
`p / full_dim` for every tile size and offset, given consistent full
dimensions. -/
theorem C6_projection_roundtrip (p offset tile_dim full_dim : ℚ)
    (ht : tile_dim ≠ 0) :
    projectCoord ((p - offset) / tile_dim) offset tile_dim full_dim =
      p / full_dim := by
  unfold projectCoord
  rw [div_mul_cancel₀ _ ht]
  ring_nf

/-- Witness for C6 at a concrete point, offset and tile size. -/
theorem C6_projection_roundtrip_witness :
    (37 : ℚ) ≠ 0 ∧
    projectCoord (((250 : ℚ) - 100) / 37) 100 37 2000 = (250 : ℚ) / 2000 :=
  ⟨by norm_num, C6_projection_roundtrip 250 100 37 2000 (by norm_num)⟩
